import Mathlib

/-!
Verification of the core path-resolution and URL-inference logic of the
`grm` repository manager (`src/main.rs`).  Strings are modelled through
their character lists, filesystem paths through their component lists,
and the external `url` crate through an exact (non-normalising) parser
for hierarchical `scheme://…` references; degenerate inputs that the
crate would normalise (upper-case schemes, empty user-info before `@`,
an empty port after `:`) are rejected by the model instead, and
non-hierarchical forms are parse errors, which none of the verified
properties depend on.  The crate's `domain()` accessor is modelled by
`Url.domain`, absent when the host is missing, a bracketed IPv6
literal, or an IPv4 address under a special scheme.
-/

set_option maxHeartbeats 1000000

deriving instance DecidableEq for Except

namespace Grm

/-- Number of `/` separators in a string.  Rust's `repo.split('/').count()`
equals `countSep repo + 1`, so the source's match arms `1, 2, 3, _`
correspond to `countSep` values `0, 1, 2, _`. -/
def countSep (s : String) : Nat := s.data.count '/'

/-- Character membership in a string, modelling Rust `str::contains(char)`. -/
def containsChar (s : String) (c : Char) : Bool := s.data.contains c

/-- Substring containment, modelling Rust `str::contains(&str)`. -/
def containsSubstring (hay needle : String) : Bool := decide (needle.data <:+: hay.data)

/-- Split a character list around the first occurrence of `sep`, or `none`
when `sep` does not occur. -/
def splitFirstAt (sep : Char) : List Char → Option (List Char × List Char)
  | [] => none
  | c :: cs =>
    if c = sep then some ([], cs)
    else (splitFirstAt sep cs).map (fun p => (c :: p.1, p.2))

/-- Split a character list around the last occurrence of `sep`, or `none`
when `sep` does not occur. -/
def splitLastAt (sep : Char) : List Char → Option (List Char × List Char)
  | [] => none
  | c :: cs =>
    match splitLastAt sep cs with
    | some p => some (c :: p.1, p.2)
    | none => if c = sep then some ([], cs) else none

/-- Take characters until the predicate holds, returning the prefix and
the remainder (which is empty or starts with a delimiter). -/
def takeUntil (p : Char → Bool) : List Char → List Char × List Char
  | [] => ([], [])
  | c :: cs =>
    if p c then ([], c :: cs)
    else
      let r := takeUntil p cs
      (c :: r.1, r.2)

/-- Errors of the external URL parser (the subset of `url::ParseError`
the model distinguishes). -/
inductive UrlParseError
  | relativeUrlWithoutBase
  | invalidAuthority
  | invalidPort
deriving DecidableEq

/-- Parsed URL, modelling `url::Url` by its components. -/
structure Url where
  scheme : String
  username : String
  password : Option String
  host : Option String
  port : Option String
  path : String
  query : Option String
  fragment : Option String
deriving DecidableEq

/-- Valid non-initial scheme character (lower-case letter, digit, `+`,
`-` or `.`; the model rejects upper case instead of folding it). -/
def validSchemeChar (c : Char) : Bool :=
  c.isLower || c.isDigit || c == '+' || c == '-' || c == '.'

/-- Valid scheme: non-empty, starting with a lower-case letter. -/
def validScheme : List Char → Bool
  | [] => false
  | c :: cs => c.isLower && cs.all validSchemeChar

/-- Numeric value of a digit string. -/
def digitsToNat (cs : List Char) : Nat :=
  cs.foldl (fun n c => n * 10 + (c.toNat - 48)) 0

/-- Parse the user-information part of an authority (`none` when the
authority has no `@`): an optional password follows the first `:`. -/
def parseUserinfo : Option (List Char) → Except UrlParseError (String × Option String)
  | none => .ok ("", none)
  | some [] => .error .invalidAuthority
  | some (c :: ui) =>
    match splitFirstAt ':' (c :: ui) with
    | none => .ok (⟨c :: ui⟩, none)
    | some p => .ok (⟨p.1⟩, some ⟨p.2⟩)

/-- Parse host and port out of the post-`@` part of an authority: the
port is the digit string after the first `:`, and an empty host is no
host. -/
def parseHostPort (cs : List Char) : Except UrlParseError (Option String × Option String) :=
  match splitFirstAt ':' cs with
  | none => .ok (if cs = [] then none else some ⟨cs⟩, none)
  | some p =>
    if p.2 ≠ [] ∧ p.2.all Char.isDigit ∧ digitsToNat p.2 < 65536 then
      .ok (if p.1 = [] then none else some ⟨p.1⟩, some ⟨p.2⟩)
    else .error .invalidPort

/-- Combine the user-information and host-port parses. -/
def parseAuthorityAt (ui : Option (List Char)) (hostport : List Char) :
    Except UrlParseError (String × Option String × Option String × Option String) :=
  match parseUserinfo ui with
  | .error e => .error e
  | .ok up =>
    match parseHostPort hostport with
    | .error e => .error e
    | .ok hp => .ok (up.1, up.2, hp.1, hp.2)

/-- Parse a full authority `userinfo@host:port`, splitting the user
information off at the last `@`. -/
def parseAuthority (cs : List Char) :
    Except UrlParseError (String × Option String × Option String × Option String) :=
  match splitLastAt '@' cs with
  | some q => parseAuthorityAt (some q.1) q.2
  | none => parseAuthorityAt none cs

/-- Split a query-and-fragment pair out of the result of scanning for `#`. -/
def splitQF (p : List Char × List Char) : Option String × Option String :=
  match p.2 with
  | d :: frag => (some ⟨p.1⟩, if d = '#' then some ⟨frag⟩ else none)
  | [] => (some ⟨p.1⟩, none)

/-- Parse the query and fragment from what follows the path (which is
empty or starts with `?` or `#`). -/
def parseQueryFragment (cs : List Char) : Option String × Option String :=
  match cs with
  | [] => (none, none)
  | c :: rest =>
    if c = '?' then splitQF (takeUntil (fun d => d == '#') rest)
    else if c = '#' then (none, some ⟨rest⟩)
    else (none, none)

/-- Delimiter ending the authority of a hierarchical URL. -/
def authDelim (c : Char) : Bool := c == '/' || c == '?' || c == '#'

/-- Delimiter ending the path of a hierarchical URL. -/
def pathDelim (c : Char) : Bool := c == '?' || c == '#'

/-- Models `url::Url::parse` on hierarchical `scheme://…` references:
scheme up to the first `:`, authority up to the first `/`, `?` or `#`,
path up to the first `?` or `#`, then query and fragment.  References
without a scheme part are `relativeUrlWithoutBase` errors, as in the
crate; other non-hierarchical forms are treated as parse failures. -/
def Url.parse (s : String) : Except UrlParseError Url :=
  match splitFirstAt ':' s.data with
  | none => .error .relativeUrlWithoutBase
  | some (schemeCs, rest) =>
    if validScheme schemeCs then
      match rest with
      | c1 :: c2 :: rest2 =>
        if c1 = '/' ∧ c2 = '/' then
          match parseAuthority (takeUntil authDelim rest2).1 with
          | .error e => .error e
          | .ok a =>
            .ok { scheme := ⟨schemeCs⟩, username := a.1, password := a.2.1,
                  host := a.2.2.1, port := a.2.2.2,
                  path := ⟨(takeUntil pathDelim (takeUntil authDelim rest2).2).1⟩,
                  query := (parseQueryFragment
                    (takeUntil pathDelim (takeUntil authDelim rest2).2).2).1,
                  fragment := (parseQueryFragment
                    (takeUntil pathDelim (takeUntil authDelim rest2).2).2).2 }
        else .error .relativeUrlWithoutBase
      | _ => .error .relativeUrlWithoutBase
    else .error .relativeUrlWithoutBase

/-- Authority part of the serialisation: user information when present,
host, and port. -/
def Url.authorityString (u : Url) : String :=
  (if u.username = "" ∧ u.password = none then ""
   else u.username ++ (match u.password with | some p => ":" ++ p | none => "") ++ "@") ++
  (match u.host with | some h => h | none => "") ++
  (match u.port with | some p => ":" ++ p | none => "")

/-- Serialisation of a URL, modelling `Url::as_str` / `Display`. -/
def Url.serialize (u : Url) : String :=
  u.scheme ++ "://" ++ u.authorityString ++ u.path ++
  (match u.query with | some q => "?" ++ q | none => "") ++
  (match u.fragment with | some f => "#" ++ f | none => "")

/-- Errors surfaced by the application, named after the spec's error
kinds; each models the corresponding `anyhow` failure of `main.rs`. -/
inductive GrmError
  | invalidReference (e : UrlParseError)
  | missingDomain (origin : String)
  | unmanagedRepository
  | noMatchingBranch (name : String)
deriving DecidableEq

/-- Scheme preference, as in the source. -/
inductive OriginUrlScheme
  | Https
  | Ssh
deriving DecidableEq

/-- Default remote host, as in the source. -/
def DEFAULT_HOST : String := "github.com"

/-- The scheme prefix applied at the two-separator stage of
`OriginUrlScheme::get_url`: `https://` under encrypted HTTP; under
secure shell, `ssh://` when the reference already contains `@` and
`ssh://git@` otherwise. -/
def schemePrefixed (scheme : OriginUrlScheme) (repo : String) : String :=
  match scheme with
  | OriginUrlScheme.Https => "https://" ++ repo
  | OriginUrlScheme.Ssh =>
    if containsChar repo '@' then "ssh://" ++ repo else "ssh://git@" ++ repo

/-- Models `OriginUrlScheme::get_url`.  The source recurses on a strictly
more qualified reference string; since `repo.split('/').count()` equals
`countSep repo + 1`, its arms `1, 2, 3, _` become `0, 1, 2, _` here.
The `fuel` argument only makes the recursion structural: by
`get_url_aux_fuel` any fuel of at least 4 gives the same result, which
matches the at-most-3-deep recursion of the source, and the fuel-0
fallback coincides with the terminal parse. -/
def get_url_aux : Nat → OriginUrlScheme → String → String → Except GrmError Url
  | 0, _, repo, _ => (Url.parse repo).mapError GrmError.invalidReference
  | fuel + 1, scheme, repo, default_username =>
    match countSep repo with
    | 0 => get_url_aux fuel scheme (default_username ++ "/" ++ repo) default_username
    | 1 => get_url_aux fuel scheme (DEFAULT_HOST ++ "/" ++ repo) default_username
    | 2 => get_url_aux fuel scheme (schemePrefixed scheme repo) default_username
    | _ + 3 => (Url.parse repo).mapError GrmError.invalidReference

/-- The identifier normaliser: `OriginUrlScheme::get_url` from the source. -/
def OriginUrlScheme.get_url (scheme : OriginUrlScheme) (repo default_username : String) :
    Except GrmError Url :=
  get_url_aux 4 scheme repo default_username

/-- One qualification step of `get_url`: the more qualified reference the
source passes to its recursive call, or `none` at the terminal parse. -/
def nextRef (scheme : OriginUrlScheme) (default_username repo : String) : Option String :=
  match countSep repo with
  | 0 => some (default_username ++ "/" ++ repo)
  | 1 => some (DEFAULT_HOST ++ "/" ++ repo)
  | 2 => some (schemePrefixed scheme repo)
  | _ + 3 => none

/-- Apply one qualification step, staying put at the terminal case. -/
def nextRefApply (scheme : OriginUrlScheme) (default_username repo : String) : String :=
  (nextRef scheme default_username repo).getD repo

/-- Filesystem paths are modelled by their component lists, the view
under which `PathBuf` equality, `join` and `strip_prefix` operate. -/
abbrev FsPath := List String

/-- Split a character list at every occurrence of `sep`. -/
def splitCharsAt (sep : Char) : List Char → List (List Char)
  | [] => [[]]
  | c :: cs =>
    match splitCharsAt sep cs with
    | [] => if c = sep then [[], []] else [[c]]
    | a :: rest => if c = sep then [] :: a :: rest else (c :: a) :: rest

/-- Components contributed by a path string: split at `/`, dropping empty
components, as `std::path::Path::components` does for relative paths. -/
def splitPath (s : String) : FsPath :=
  ((splitCharsAt '/' s.data).map (fun cs => (⟨cs⟩ : String))).filter (fun c => c != "")

/-- Models `PathBuf::join` with a relative argument. -/
def pathJoin (p : FsPath) (s : String) : FsPath := p ++ splitPath s

/-- Models `str::trim_start_matches('/')`: strip every leading `/`. -/
def trimLeadingSlashes (s : String) : String := ⟨s.data.dropWhile (fun c => c == '/')⟩

/-- Special schemes of the WHATWG URL standard: the `url` crate parses
their hosts, so numeric hosts become IP addresses rather than domains;
hosts of other schemes (such as `ssh`) are opaque and always count as
domains. -/
def isSpecialScheme (s : String) : Bool :=
  s == "http" || s == "https" || s == "ws" || s == "wss" || s == "ftp" || s == "file"

/-- A bracketed host, the literal form of an IPv6 address. -/
def bracketHost (h : String) : Bool := h.data.head? == some '['

/-- One label of a dotted-quad IPv4 address: non-empty, all digits,
value below 256. -/
def ipv4Label (l : List Char) : Bool :=
  !l.isEmpty && l.all Char.isDigit && decide (digitsToNat l < 256)

/-- A well-formed dotted-quad IPv4 address, the numeric-host form this
program can reach.  The crate's full "ends in a number" host check also
rejects malformed numeric hosts (hex or out-of-range labels) with a
parse error; those inputs are outside the model. -/
def isDottedQuad (h : String) : Bool :=
  (splitCharsAt '.' h.data).length == 4 && (splitCharsAt '.' h.data).all ipv4Label

/-- Models `url::Url::domain()`: the host, except that there is no
domain when the host is absent, is a bracketed IPv6 literal, or — for
the special schemes whose hosts are parsed — is an IPv4 address. -/
def Url.domain (u : Url) : Option String :=
  match u.host with
  | none => none
  | some h =>
    if bracketHost h then none
    else if isSpecialScheme u.scheme && isDottedQuad h then none
    else some h

/-- Models `App::get_repo_path`.  The memoised root directory is passed
as the already-resolved `root`; `origin.domain()` is modelled by
`Url.domain`. -/
def get_repo_path (root : FsPath) (origin : Url) : Except GrmError FsPath :=
  match origin.domain with
  | none => .error (.missingDomain origin.serialize)
  | some domain => .ok (pathJoin (pathJoin root domain) (trimLeadingSlashes origin.path))

/-- Models `Path::strip_prefix`: succeeds exactly when `pre` is a
component-wise prefix, returning the remaining components. -/
def stripPrefixPath (pre p : FsPath) : Option FsPath :=
  if pre.isPrefixOf p then some (p.drop pre.length) else none

/-- Models `App::worktree_root_dir`. -/
def worktree_root_dir (root : FsPath) : FsPath := pathJoin root "worktrees"

/-- Models `App::get_worktree_path`.  The argument `main_worktree_path`
is the resolved main working-copy directory of the current repository
(the `commondir`-based resolution for linked worktrees is filesystem
work outside the model). -/
def get_worktree_path (root main_worktree_path : FsPath) (branch : String) :
    Except GrmError FsPath :=
  match stripPrefixPath root main_worktree_path with
  | none => .error .unmanagedRepository
  | some relative => .ok ((worktree_root_dir root ++ relative) ++ splitPath branch)

/-- Models `branch_name.replace('/', "__")` (a single-character pattern,
replaced occurrence by occurrence), the identifier the source passes as
the linked worktree's internal name. -/
def worktree_internal_name (branch : String) : String :=
  ⟨branch.data.flatMap (fun c => if c = '/' then ['_', '_'] else [c])⟩

/-- Comparator of the branch sort in `CliCommand::New { worktree: true }`:
ascending by number of `/`-separated segments, then by total length
(the less-or-equal form of the source's `Ordering` comparator; segment
count is `countSep + 1`, compared here through `countSep`). -/
def branchOrderLe (a b : String) : Bool :=
  decide (countSep a < countSep b ∨ (countSep a = countSep b ∧ a.length ≤ b.length))

/-- Models the branch selection of `CliCommand::New { worktree: true }`:
keep the branches whose name contains `name`, sort them with the
comparator (`sort_unstable_by` modelled by a comparison sort) and take
the last, failing when nothing matches. -/
def select_branch (name : String) (branches : List String) : Except GrmError String :=
  match ((branches.filter (fun b => containsSubstring b name)).mergeSort
      branchOrderLe).getLast? with
  | none => .error (.noMatchingBranch name)
  | some b => .ok b

/-- A host-less URL (used as a concrete witness input below): the result
of parsing `https:///foo/bar`. -/
def hostlessUrl : Url :=
  ⟨"https", "", none, none, none, "/foo/bar", none, none⟩

/-- The canonical URL of the spec's running example. -/
def exampleUrl : Url :=
  ⟨"https", "", none, some "github.com", none, "/foo/bar", none, none⟩

/-- The secure-shell qualification of the spec's running example. -/
def exampleSshUrl : Url :=
  ⟨"ssh", "git", none, some "github.com", none, "/foo/bar", none, none⟩

/-- The URL parsed from `https://1.2.3.4/foo/bar`: its host is an IPv4
address, so it has no domain. -/
def ipHostUrl : Url :=
  ⟨"https", "", none, some "1.2.3.4", none, "/foo/bar", none, none⟩

/-- Characters of the serialised user-information piece. -/
def uiChars (un : String) (pw : Option String) : List Char :=
  if un = "" ∧ pw = none then []
  else un.data ++ (match pw with | some p => ':' :: p.data | none => []) ++ ['@']

/-- Characters contributed to an authority by an optional user-information
source segment. -/
def uiSrcChars : Option (List Char) → List Char
  | some l => l ++ ['@']
  | none => []

/-- Characters of the serialised host piece. -/
def hostChars : Option String → List Char
  | some h0 => h0.data
  | none => []

/-- Characters of the serialised port piece. -/
def portChars : Option String → List Char
  | some p => ':' :: p.data
  | none => []

/-- Characters of the serialised query piece. -/
def queryChars : Option String → List Char
  | some q => '?' :: q.data
  | none => []

/-- Characters of the serialised fragment piece. -/
def fragmentChars : Option String → List Char
  | some f => '#' :: f.data
  | none => []

theorem splitFirstAt_none {sep : Char} :
    ∀ {cs : List Char}, splitFirstAt sep cs = none → sep ∉ cs := by
  intro cs
  induction cs with
  | nil => intro _ h; simp at h
  | cons c cs ih =>
    intro h
    by_cases hc : c = sep
    · rw [splitFirstAt, if_pos hc] at h
      exact absurd h (by simp)
    · rw [splitFirstAt, if_neg hc] at h
      cases hrec : splitFirstAt sep cs with
      | some p => rw [hrec] at h; simp at h
      | none =>
        intro hmem
        rcases List.mem_cons.mp hmem with hmem | hmem
        · exact hc hmem.symm
        · exact ih hrec hmem

theorem splitFirstAt_eq {sep : Char} :
    ∀ {cs a b : List Char}, splitFirstAt sep cs = some (a, b) →
      cs = a ++ sep :: b ∧ sep ∉ a := by
  intro cs
  induction cs with
  | nil => intro a b h; simp [splitFirstAt] at h
  | cons c cs ih =>
    intro a b h
    by_cases hc : c = sep
    · rw [splitFirstAt, if_pos hc] at h
      simp only [Option.some.injEq, Prod.mk.injEq] at h
      obtain ⟨rfl, rfl⟩ := h
      subst hc
      exact ⟨rfl, by simp⟩
    · rw [splitFirstAt, if_neg hc] at h
      cases hrec : splitFirstAt sep cs with
      | none => rw [hrec] at h; simp at h
      | some p =>
        rw [hrec] at h
        simp only [Option.map, Option.some.injEq, Prod.mk.injEq] at h
        obtain ⟨rfl, rfl⟩ := h
        obtain ⟨he, hn⟩ := ih hrec
        refine ⟨by rw [List.cons_append, ← he], ?_⟩
        intro hmem
        rcases List.mem_cons.mp hmem with hmem | hmem
        · exact hc hmem.symm
        · exact hn hmem

theorem splitLastAt_none {sep : Char} :
    ∀ {cs : List Char}, splitLastAt sep cs = none → sep ∉ cs := by
  intro cs
  induction cs with
  | nil => intro _ h; simp at h
  | cons c cs ih =>
    intro h
    rw [splitLastAt] at h
    cases hrec : splitLastAt sep cs with
    | some p => rw [hrec] at h; simp at h
    | none =>
      rw [hrec] at h
      by_cases hc : c = sep
      · rw [if_pos hc] at h; simp at h
      · intro hmem
        rcases List.mem_cons.mp hmem with hmem | hmem
        · exact hc hmem.symm
        · exact ih hrec hmem

theorem splitLastAt_eq {sep : Char} :
    ∀ {cs a b : List Char}, splitLastAt sep cs = some (a, b) →
      cs = a ++ sep :: b ∧ sep ∉ b := by
  intro cs
  induction cs with
  | nil => intro a b h; simp [splitLastAt] at h
  | cons c cs ih =>
    intro a b h
    rw [splitLastAt] at h
    cases hrec : splitLastAt sep cs with
    | some p =>
      rw [hrec] at h
      simp only [Option.some.injEq, Prod.mk.injEq] at h
      obtain ⟨rfl, rfl⟩ := h
      obtain ⟨he, hn⟩ := ih hrec
      exact ⟨by rw [List.cons_append, ← he], hn⟩
    | none =>
      rw [hrec] at h
      by_cases hc : c = sep
      · rw [if_pos hc] at h
        simp only [Option.some.injEq, Prod.mk.injEq] at h
        obtain ⟨rfl, rfl⟩ := h
        subst hc
        exact ⟨rfl, splitLastAt_none hrec⟩
      · rw [if_neg hc] at h; simp at h

theorem takeUntil_append (p : Char → Bool) :
    ∀ cs : List Char, (takeUntil p cs).1 ++ (takeUntil p cs).2 = cs := by
  intro cs
  induction cs with
  | nil => rfl
  | cons c cs ih =>
    by_cases hc : p c
    · simp [takeUntil, hc]
    · simp [takeUntil, hc, ih]

theorem takeUntil_rest (p : Char → Bool) :
    ∀ cs : List Char, (takeUntil p cs).2 = [] ∨
      ∃ c cs2, (takeUntil p cs).2 = c :: cs2 ∧ p c = true := by
  intro cs
  induction cs with
  | nil => left; rfl
  | cons c cs ih =>
    by_cases hc : p c
    · right; exact ⟨c, cs, by simp [takeUntil, hc], hc⟩
    · simpa [takeUntil, hc] using ih

theorem takeUntil_fst_not (p : Char → Bool) :
    ∀ cs : List Char, ∀ c ∈ (takeUntil p cs).1, p c = false := by
  intro cs
  induction cs with
  | nil => intro c h; simp [takeUntil] at h
  | cons d cs ih =>
    intro c h
    by_cases hd : p d
    · simp [takeUntil, hd] at h
    · simp [takeUntil, hd] at h
      rcases h with h | h
      · subst h; simp [hd]
      · exact ih c h

theorem string_mk_ne_empty {cs : List Char} (h : cs ≠ []) : (⟨cs⟩ : String) ≠ "" := by
  intro hx
  exact h (congrArg String.data hx)

theorem parseUserinfo_exact {oi : Option (List Char)} {un : String} {pw : Option String}
    (h : parseUserinfo oi = .ok (un, pw)) :
    uiChars un pw = uiSrcChars oi := by
  match oi with
  | none =>
    rw [parseUserinfo] at h
    simp only [Except.ok.injEq, Prod.mk.injEq] at h
    obtain ⟨rfl, rfl⟩ := h
    simp [uiChars, uiSrcChars]
  | some [] => rw [parseUserinfo] at h; simp at h
  | some (c :: ui) =>
    rw [parseUserinfo] at h
    cases hsp : splitFirstAt ':' (c :: ui) with
    | none =>
      rw [hsp] at h
      simp only [Except.ok.injEq, Prod.mk.injEq] at h
      obtain ⟨rfl, rfl⟩ := h
      rw [uiChars, if_neg (by intro hx; exact string_mk_ne_empty (by simp) hx.1)]
      simp [uiSrcChars]
    | some p =>
      rw [hsp] at h
      simp only [Except.ok.injEq, Prod.mk.injEq] at h
      obtain ⟨rfl, rfl⟩ := h
      rw [uiChars, if_neg (by intro hx; cases hx.2)]
      have he := (splitFirstAt_eq hsp).1
      simp [uiSrcChars, he]

theorem parseHostPort_exact {cs : List Char} {ho po : Option String}
    (h : parseHostPort cs = .ok (ho, po)) :
    hostChars ho ++ portChars po = cs ∧ ho ≠ some "" := by
  rw [parseHostPort] at h
  split at h
  · rename_i hsp
    by_cases hcs : cs = []
    · rw [if_pos hcs] at h
      simp only [Except.ok.injEq, Prod.mk.injEq] at h
      obtain ⟨rfl, rfl⟩ := h
      subst hcs
      simp [hostChars, portChars]
    · rw [if_neg hcs] at h
      simp only [Except.ok.injEq, Prod.mk.injEq] at h
      obtain ⟨rfl, rfl⟩ := h
      refine ⟨by simp [hostChars, portChars], ?_⟩
      intro hx
      exact string_mk_ne_empty hcs (Option.some.inj hx)
  · rename_i p hsp
    split at h
    · rename_i hcond
      have he := (splitFirstAt_eq hsp).1
      by_cases hp1 : p.1 = []
      · rw [if_pos hp1] at h
        simp only [Except.ok.injEq, Prod.mk.injEq] at h
        obtain ⟨rfl, rfl⟩ := h
        refine ⟨?_, by simp⟩
        rw [he, hp1]
        simp [hostChars, portChars]
      · rw [if_neg hp1] at h
        simp only [Except.ok.injEq, Prod.mk.injEq] at h
        obtain ⟨rfl, rfl⟩ := h
        refine ⟨by rw [he]; simp [hostChars, portChars], ?_⟩
        intro hx
        exact string_mk_ne_empty hp1 (Option.some.inj hx)
    · simp at h

theorem parseAuthorityAt_exact {ui : Option (List Char)} {hostport : List Char}
    {un : String} {pw ho po : Option String}
    (h : parseAuthorityAt ui hostport = .ok (un, pw, ho, po)) :
    uiChars un pw ++ hostChars ho ++ portChars po = uiSrcChars ui ++ hostport
    ∧ ho ≠ some "" := by
  rw [parseAuthorityAt] at h
  split at h
  · simp at h
  · rename_i upw hui
    split at h
    · simp at h
    · rename_i hp hhp
      obtain ⟨x, y⟩ := hp
      obtain ⟨a, b⟩ := upw
      simp only [Except.ok.injEq, Prod.mk.injEq] at h
      obtain ⟨rfl, rfl, rfl, rfl⟩ := h
      obtain ⟨hhe, hne⟩ := parseHostPort_exact hhp
      have hue := parseUserinfo_exact hui
      refine ⟨?_, hne⟩
      rw [List.append_assoc, hhe, hue]

theorem parseAuthority_exact {cs : List Char} {un : String} {pw ho po : Option String}
    (h : parseAuthority cs = .ok (un, pw, ho, po)) :
    uiChars un pw ++ hostChars ho ++ portChars po = cs ∧ ho ≠ some "" := by
  rw [parseAuthority] at h
  split at h
  · rename_i q hsp
    have he := (splitLastAt_eq hsp).1
    obtain ⟨hre, hne⟩ := parseAuthorityAt_exact h
    refine ⟨?_, hne⟩
    rw [hre, he]
    simp [uiSrcChars]
  · rename_i hsp
    obtain ⟨hre, hne⟩ := parseAuthorityAt_exact h
    refine ⟨?_, hne⟩
    rw [hre]
    simp [uiSrcChars]

theorem splitQF_exact {p : List Char × List Char} {q f : Option String}
    (hshape : p.2 = [] ∨ ∃ c cs2, p.2 = c :: cs2 ∧ (c == '#') = true)
    (h : splitQF p = (q, f)) :
    ∃ q0, q = some q0 ∧ q0.data ++ fragmentChars f = p.1 ++ p.2 := by
  obtain ⟨a, b⟩ := p
  rcases hshape with hb | ⟨c, cs2, hb, hc⟩ <;> simp only at hb <;> subst hb
  · rw [splitQF] at h
    simp only [Prod.mk.injEq] at h
    obtain ⟨rfl, rfl⟩ := h
    exact ⟨_, rfl, by simp [fragmentChars]⟩
  · have hc2 : c = '#' := by simpa using hc
    subst hc2
    rw [splitQF] at h
    simp only [Prod.mk.injEq] at h
    obtain ⟨rfl, rfl⟩ := h
    refine ⟨_, rfl, ?_⟩
    simp [fragmentChars]

theorem parseQueryFragment_exact {cs : List Char} {q f : Option String}
    (hshape : cs = [] ∨ ∃ c cs2, cs = c :: cs2 ∧ pathDelim c = true)
    (h : parseQueryFragment cs = (q, f)) :
    queryChars q ++ fragmentChars f = cs := by
  rcases hshape with rfl | ⟨c, cs2, rfl, hc⟩
  · rw [parseQueryFragment] at h
    simp only [Prod.mk.injEq] at h
    obtain ⟨rfl, rfl⟩ := h
    simp [queryChars, fragmentChars]
  · have hc2 : c = '?' ∨ c = '#' := by simpa [pathDelim] using hc
    rcases hc2 with rfl | rfl
    · rw [parseQueryFragment, if_pos rfl] at h
      have hap := takeUntil_append (fun d => d == '#') cs2
      have hrest := takeUntil_rest (fun d => d == '#') cs2
      obtain ⟨q0, rfl, hq⟩ := splitQF_exact hrest h
      simp only [queryChars]
      rw [List.cons_append, hq, hap]
    · rw [parseQueryFragment, if_neg (by decide), if_pos rfl] at h
      simp only [Prod.mk.injEq] at h
      obtain ⟨rfl, rfl⟩ := h
      simp [queryChars, fragmentChars]

theorem authorityString_data (u : Url) :
    u.authorityString.data =
      uiChars u.username u.password ++ hostChars u.host ++ portChars u.port := by
  obtain ⟨sc, un, pw, ho, po, pa, q, f⟩ := u
  simp only [Url.authorityString, uiChars]
  by_cases hun : un = ""
  · subst hun
    cases pw <;> cases ho <;> cases po <;> simp [hostChars, portChars]
  · cases pw <;> cases ho <;> cases po <;> simp [hostChars, portChars, hun]

theorem serialize_data (u : Url) :
    u.serialize.data =
      u.scheme.data ++ ':' :: '/' :: '/' ::
        (u.authorityString.data ++ u.path.data ++ queryChars u.query
          ++ fragmentChars u.fragment) := by
  obtain ⟨sc, un, pw, ho, po, pa, q, f⟩ := u
  simp only [Url.serialize]
  cases q <;> cases f <;> simp [queryChars, fragmentChars]

theorem parse_ok_inv {s : String} {u : Url} (h : Url.parse s = .ok u) :
    u.serialize = s ∧ u.host ≠ some "" := by
  rw [Url.parse] at h
  split at h
  · simp at h
  · rename_i schemeCs rest hsp
    split at h
    · split at h
      · rename_i c1 c2 rest2
        split at h
        · rename_i hslash
          obtain ⟨rfl, rfl⟩ := hslash
          split at h
          · simp at h
          · rename_i a hauth
            obtain ⟨un, pw, ho, po⟩ := a
            simp only [Except.ok.injEq] at h
            subst h
            obtain ⟨hae, hne⟩ := parseAuthority_exact hauth
            refine ⟨?_, hne⟩
            apply String.ext
            rw [serialize_data]
            dsimp only
            rw [authorityString_data]
            dsimp only
            have hqf := parseQueryFragment_exact
              (takeUntil_rest pathDelim (takeUntil authDelim rest2).2) Prod.mk.eta.symm
            have hpe := takeUntil_append pathDelim (takeUntil authDelim rest2).2
            have hap := takeUntil_append authDelim rest2
            have hse := (splitFirstAt_eq hsp).1
            set A1 := (takeUntil authDelim rest2).1 with hA1
            set A2 := (takeUntil authDelim rest2).2 with hA2
            set P1 := (takeUntil pathDelim A2).1 with hP1
            set P2 := (takeUntil pathDelim A2).2 with hP2
            rw [hse]
            simp only [List.append_assoc, List.cons_append]
            rw [hqf, hpe, ← hap, ← hae]
            simp [List.append_assoc]
        · simp at h
      · simp at h
    · simp at h

theorem countSep_append (a b : String) : countSep (a ++ b) = countSep a + countSep b := by
  simp [countSep, String.data_append, List.count_append]

theorem countSep_prepend_user (user repo : String) :
    countSep (user ++ "/" ++ repo) = countSep user + 1 + countSep repo := by
  rw [countSep_append, countSep_append]
  rfl

theorem countSep_prepend_host (repo : String) :
    countSep (DEFAULT_HOST ++ "/" ++ repo) = 1 + countSep repo := by
  rw [countSep_append, countSep_append]
  rfl

theorem countSep_schemePrefixed (scheme : OriginUrlScheme) (repo : String) :
    countSep (schemePrefixed scheme repo) = 2 + countSep repo := by
  cases scheme
  · rw [schemePrefixed, countSep_append]
    rfl
  · rw [schemePrefixed]
    by_cases hc : containsChar repo '@'
    · rw [if_pos hc, countSep_append]
      rfl
    · rw [if_neg hc, countSep_append]
      rfl

theorem nextRef_countSep {scheme : OriginUrlScheme} {user repo r2 : String}
    (h : nextRef scheme user repo = some r2) : countSep repo < countSep r2 := by
  rw [nextRef] at h
  split at h
  · rename_i hc
    simp only [Option.some.injEq] at h
    subst h
    rw [countSep_prepend_user, hc]
    omega
  · rename_i hc
    simp only [Option.some.injEq] at h
    subst h
    rw [countSep_prepend_host, hc]
    omega
  · rename_i hc
    simp only [Option.some.injEq] at h
    subst h
    rw [countSep_schemePrefixed, hc]
    omega
  · simp at h

theorem nextRef_none_of_ge {scheme : OriginUrlScheme} {user repo : String}
    (h : 3 ≤ countSep repo) : nextRef scheme user repo = none := by
  obtain ⟨k, hk⟩ : ∃ k, countSep repo = k + 3 := ⟨countSep repo - 3, by omega⟩
  rw [nextRef, hk]

theorem get_url_aux_step {fuel : Nat} {scheme : OriginUrlScheme} {user repo r2 : String}
    (h : nextRef scheme user repo = some r2) :
    get_url_aux (fuel + 1) scheme repo user = get_url_aux fuel scheme r2 user := by
  rw [nextRef] at h
  rw [get_url_aux]
  split at h
  · rename_i hc
    simp only [Option.some.injEq] at h
    subst h
    rfl
  · rename_i hc
    simp only [Option.some.injEq] at h
    subst h
    rfl
  · rename_i hc
    simp only [Option.some.injEq] at h
    subst h
    rfl
  · simp at h

theorem get_url_aux_terminal {repo : String} (h : 3 ≤ countSep repo)
    (fuel : Nat) (scheme : OriginUrlScheme) (user : String) :
    get_url_aux fuel scheme repo user
      = (Url.parse repo).mapError GrmError.invalidReference := by
  obtain ⟨k, hk⟩ : ∃ k, countSep repo = k + 3 := ⟨countSep repo - 3, by omega⟩
  cases fuel with
  | zero => rw [get_url_aux]
  | succ f => rw [get_url_aux, hk]

theorem get_url_aux_fuel_ge2 {repo : String} (hc : 2 ≤ countSep repo) {f1 f2 : Nat}
    (h1 : 1 ≤ f1) (h2 : 1 ≤ f2) (scheme : OriginUrlScheme) (user : String) :
    get_url_aux f1 scheme repo user = get_url_aux f2 scheme repo user := by
  by_cases h3 : 3 ≤ countSep repo
  · rw [get_url_aux_terminal h3 f1 scheme user, get_url_aux_terminal h3 f2 scheme user]
  · have hc2 : countSep repo = 2 := by omega
    obtain ⟨g1, rfl⟩ : ∃ g, f1 = g + 1 := ⟨f1 - 1, by omega⟩
    obtain ⟨g2, rfl⟩ : ∃ g, f2 = g + 1 := ⟨f2 - 1, by omega⟩
    have hs : nextRef scheme user repo = some (schemePrefixed scheme repo) := by
      rw [nextRef, hc2]
    have ht : 3 ≤ countSep (schemePrefixed scheme repo) := by
      rw [countSep_schemePrefixed, hc2]
      omega
    rw [get_url_aux_step hs, get_url_aux_step hs,
      get_url_aux_terminal ht g1 scheme user, get_url_aux_terminal ht g2 scheme user]

theorem get_url_aux_fuel_ge1 {repo : String} (hc : 1 ≤ countSep repo) {f1 f2 : Nat}
    (h1 : 2 ≤ f1) (h2 : 2 ≤ f2) (scheme : OriginUrlScheme) (user : String) :
    get_url_aux f1 scheme repo user = get_url_aux f2 scheme repo user := by
  by_cases hc2 : 2 ≤ countSep repo
  · exact get_url_aux_fuel_ge2 hc2 (by omega) (by omega) scheme user
  · have hc1 : countSep repo = 1 := by omega
    obtain ⟨g1, rfl⟩ : ∃ g, f1 = g + 1 := ⟨f1 - 1, by omega⟩
    obtain ⟨g2, rfl⟩ : ∃ g, f2 = g + 1 := ⟨f2 - 1, by omega⟩
    have hs : nextRef scheme user repo = some (DEFAULT_HOST ++ "/" ++ repo) := by
      rw [nextRef, hc1]
    rw [get_url_aux_step hs, get_url_aux_step hs]
    exact get_url_aux_fuel_ge2 (by rw [countSep_prepend_host]; omega)
      (by omega) (by omega) scheme user

theorem get_url_aux_fuel {repo : String} {f1 f2 : Nat} (h1 : 3 ≤ f1) (h2 : 3 ≤ f2)
    (scheme : OriginUrlScheme) (user : String) :
    get_url_aux f1 scheme repo user = get_url_aux f2 scheme repo user := by
  by_cases hc : 1 ≤ countSep repo
  · exact get_url_aux_fuel_ge1 hc (by omega) (by omega) scheme user
  · have hc0 : countSep repo = 0 := by omega
    obtain ⟨g1, rfl⟩ : ∃ g, f1 = g + 1 := ⟨f1 - 1, by omega⟩
    obtain ⟨g2, rfl⟩ : ∃ g, f2 = g + 1 := ⟨f2 - 1, by omega⟩
    have hs : nextRef scheme user repo = some (user ++ "/" ++ repo) := by
      rw [nextRef, hc0]
    rw [get_url_aux_step hs, get_url_aux_step hs]
    exact get_url_aux_fuel_ge1 (by rw [countSep_prepend_user]; omega)
      (by omega) (by omega) scheme user

theorem worktree_internal_name_no_slash (branch : String) :
    '/' ∉ (worktree_internal_name branch).data := by
  rw [worktree_internal_name]
  intro hmem
  simp only [List.mem_flatMap] at hmem
  obtain ⟨c, hc, hmem2⟩ := hmem
  by_cases h : c = '/'
  · rw [if_pos h] at hmem2
    simp at hmem2
  · rw [if_neg h] at hmem2
    simp at hmem2
    exact h hmem2.symm

theorem flatMap_slash_id : ∀ (cs : List Char), '/' ∉ cs →
    cs.flatMap (fun c => if c = '/' then ['_', '_'] else [c]) = cs := by
  intro cs
  induction cs with
  | nil => intro _; rfl
  | cons c cs ih =>
    intro hmem
    rw [List.flatMap_cons,
      if_neg (by intro hx; exact hmem (by rw [← hx]; exact List.mem_cons_self c cs))]
    rw [List.singleton_append, ih (fun hm => hmem (List.mem_cons_of_mem c hm))]

theorem worktree_internal_name_id {branch : String}
    (h : ¬ containsChar branch '/' = true) : worktree_internal_name branch = branch := by
  apply String.ext
  rw [worktree_internal_name]
  show branch.data.flatMap (fun c => if c = '/' then ['_', '_'] else [c]) = branch.data
  have hmem : '/' ∉ branch.data := by
    intro hm
    exact h (by rw [containsChar]; exact List.elem_eq_true_of_mem hm)
  exact flatMap_slash_id branch.data hmem

theorem branchOrderLe_refl (a : String) : branchOrderLe a a = true := by
  simp [branchOrderLe]

theorem branchOrderLe_trans (a b c : String) (hab : branchOrderLe a b = true)
    (hbc : branchOrderLe b c = true) : branchOrderLe a c = true := by
  simp only [branchOrderLe, decide_eq_true_eq] at hab hbc ⊢
  omega

theorem branchOrderLe_total (a b : String) :
    (branchOrderLe a b || branchOrderLe b a) = true := by
  simp only [branchOrderLe, Bool.or_eq_true, decide_eq_true_eq]
  omega

theorem pairwise_getLast_ub {α : Type} {le : α → α → Bool} {l : List α} {r : α}
    (hrefl : ∀ a, le a a = true)
    (hp : l.Pairwise (fun a b => le a b = true)) (hr : l.getLast? = some r) :
    ∀ b ∈ l, le b r = true := by
  induction l with
  | nil => simp at hr
  | cons c cs ih =>
    intro b hb
    cases cs with
    | nil =>
      simp only [List.getLast?_singleton, Option.some.injEq] at hr
      simp only [List.mem_singleton] at hb
      rw [hb, hr]
      exact hrefl r
    | cons d ds =>
      rw [List.getLast?_cons_cons] at hr
      have hpc := List.pairwise_cons.mp hp
      rcases List.mem_cons.mp hb with rfl | hb2
      · exact hpc.1 r (List.mem_of_getLast?_eq_some hr)
      · exact ih hpc.2 hr b hb2

theorem select_branch_error_iff (name : String) (branches : List String) :
    select_branch name branches = .error (.noMatchingBranch name) ↔
      ∀ b ∈ branches, ¬ containsSubstring b name = true := by
  rw [select_branch]
  cases hl : ((branches.filter (fun b => containsSubstring b name)).mergeSort
      branchOrderLe).getLast? with
  | none =>
    simp only [List.getLast?_eq_none_iff] at hl
    have hfil : branches.filter (fun b => containsSubstring b name) = [] := by
      have hperm := List.mergeSort_perm
        (branches.filter (fun b => containsSubstring b name)) branchOrderLe
      rw [hl] at hperm
      exact (List.Perm.nil_eq hperm).symm
    simp only [List.filter_eq_nil_iff] at hfil
    simpa using hfil
  | some r =>
    constructor
    · intro hx; simp at hx
    · intro hall
      have hr : r ∈ (branches.filter (fun b => containsSubstring b name)).mergeSort
          branchOrderLe := List.mem_of_getLast?_eq_some hl
      rw [List.mem_mergeSort, List.mem_filter] at hr
      exact absurd hr.2 (hall r hr.1)

theorem select_branch_ok_max {name : String} {branches : List String} {r : String}
    (h : select_branch name branches = .ok r) :
    r ∈ branches ∧ containsSubstring r name = true ∧
      ∀ b ∈ branches, containsSubstring b name = true → branchOrderLe b r = true := by
  rw [select_branch] at h
  cases hl : ((branches.filter (fun b => containsSubstring b name)).mergeSort
      branchOrderLe).getLast? with
  | none => rw [hl] at h; simp at h
  | some r0 =>
    rw [hl] at h
    simp only [Except.ok.injEq] at h
    subst h
    have hr : r0 ∈ (branches.filter (fun b => containsSubstring b name)).mergeSort
        branchOrderLe := List.mem_of_getLast?_eq_some hl
    rw [List.mem_mergeSort, List.mem_filter] at hr
    refine ⟨hr.1, hr.2, ?_⟩
    intro b hb hbc
    have hbm : b ∈ (branches.filter (fun b => containsSubstring b name)).mergeSort
        branchOrderLe := by
      rw [List.mem_mergeSort, List.mem_filter]
      exact ⟨hb, hbc⟩
    exact pairwise_getLast_ub branchOrderLe_refl
      (List.sorted_mergeSort branchOrderLe_trans branchOrderLe_total
        (branches.filter (fun b => containsSubstring b name))) hl b hbm

/-- C1: with username `"foo"`, encrypted-HTTP preference and default host
`github.com`, the normaliser maps `"bar"`, `"foo/bar"`,
`"github.com/foo/bar"` and `"https://github.com/foo/bar"` all to the URL
`https://github.com/foo/bar`, the last one unchanged (it equals its own
parse). -/
theorem C1_progressive_qualification :
    OriginUrlScheme.Https.get_url "bar" "foo" = .ok exampleUrl ∧
    OriginUrlScheme.Https.get_url "foo/bar" "foo" = .ok exampleUrl ∧
    OriginUrlScheme.Https.get_url "github.com/foo/bar" "foo" = .ok exampleUrl ∧
    OriginUrlScheme.Https.get_url "https://github.com/foo/bar" "foo" = .ok exampleUrl ∧
    Url.serialize exampleUrl = "https://github.com/foo/bar" ∧
    Url.parse "https://github.com/foo/bar" = .ok exampleUrl := by
  refine ⟨?_, ?_, ?_, ?_, ?_, ?_⟩ <;> decide

/-- C2: a reference with at least three separators is parsed as a URL
directly, for both scheme preferences: on success the parsed URL is
returned exactly (and normalising its serialisation returns the same
URL), and a parse failure propagates as an `invalidReference` error. -/
theorem C2_full_url_passthrough (scheme : OriginUrlScheme) (user repo : String)
    (h3 : 3 ≤ countSep repo) :
    scheme.get_url repo user = (Url.parse repo).mapError GrmError.invalidReference ∧
    (∀ u, Url.parse repo = .ok u → scheme.get_url u.serialize user = .ok u) ∧
    (∀ e, Url.parse repo = .error e →
      scheme.get_url repo user = .error (GrmError.invalidReference e)) := by
  have hterm := get_url_aux_terminal h3 4 scheme user
  simp only [OriginUrlScheme.get_url]
  refine ⟨hterm, ?_, ?_⟩
  · intro u hu
    have hser : u.serialize = repo := (parse_ok_inv hu).1
    rw [hser, hterm, hu]
    rfl
  · intro e he
    rw [hterm, he]
    rfl

/-- C2 witness: the theorem applied to the reference
`https://github.com/foo/bar` under encrypted-HTTP preference. -/
theorem C2_full_url_passthrough_witness :
    (OriginUrlScheme.Https.get_url "https://github.com/foo/bar" "foo"
        = (Url.parse "https://github.com/foo/bar").mapError GrmError.invalidReference) ∧
    (∀ u, Url.parse "https://github.com/foo/bar" = .ok u →
        OriginUrlScheme.Https.get_url u.serialize "foo" = .ok u) ∧
    (∀ e, Url.parse "https://github.com/foo/bar" = .error e →
        OriginUrlScheme.Https.get_url "https://github.com/foo/bar" "foo"
          = .error (GrmError.invalidReference e)) :=
  C2_full_url_passthrough OriginUrlScheme.Https "foo" "https://github.com/foo/bar" (by decide)

/-- C3: at the two-separator stage the secure-shell preference prefixes
`ssh://` when the reference contains `@` (preserving the login) and
`ssh://git@` otherwise, while the encrypted-HTTP preference always
prefixes `https://` without inspecting `@`; in particular
`github.com/foo/bar` maps to `ssh://git@github.com/foo/bar` and
`user@github.com/foo/bar` to `ssh://user@github.com/foo/bar`. -/
theorem C3_two_separator_qualification :
    (∀ repo user : String, countSep repo = 2 →
      OriginUrlScheme.Ssh.get_url repo user
        = (Url.parse (if containsChar repo '@' then "ssh://" ++ repo
            else "ssh://git@" ++ repo)).mapError GrmError.invalidReference ∧
      OriginUrlScheme.Https.get_url repo user
        = (Url.parse ("https://" ++ repo)).mapError GrmError.invalidReference) ∧
    (OriginUrlScheme.Ssh.get_url "github.com/foo/bar" "foo").map Url.serialize
      = .ok "ssh://git@github.com/foo/bar" ∧
    (OriginUrlScheme.Ssh.get_url "user@github.com/foo/bar" "foo").map Url.serialize
      = .ok "ssh://user@github.com/foo/bar" := by
  refine ⟨?_, by decide, by decide⟩
  intro repo user h2
  have hsS : nextRef OriginUrlScheme.Ssh user repo
      = some (schemePrefixed OriginUrlScheme.Ssh repo) := by rw [nextRef, h2]
  have hsH : nextRef OriginUrlScheme.Https user repo
      = some (schemePrefixed OriginUrlScheme.Https repo) := by rw [nextRef, h2]
  have htS : 3 ≤ countSep (schemePrefixed OriginUrlScheme.Ssh repo) := by
    rw [countSep_schemePrefixed]; omega
  have htH : 3 ≤ countSep (schemePrefixed OriginUrlScheme.Https repo) := by
    rw [countSep_schemePrefixed]; omega
  constructor
  · rw [OriginUrlScheme.get_url, show (4 : Nat) = 3 + 1 from rfl, get_url_aux_step hsS,
      get_url_aux_terminal htS 3 OriginUrlScheme.Ssh user, schemePrefixed]
  · rw [OriginUrlScheme.get_url, show (4 : Nat) = 3 + 1 from rfl, get_url_aux_step hsH,
      get_url_aux_terminal htH 3 OriginUrlScheme.Https user, schemePrefixed]

/-- C3 witness: the two-separator stage applied to `github.com/foo/bar`. -/
theorem C3_two_separator_qualification_witness :
    OriginUrlScheme.Ssh.get_url "github.com/foo/bar" "foo"
      = (Url.parse (if containsChar "github.com/foo/bar" '@' then
            "ssh://" ++ "github.com/foo/bar"
          else "ssh://git@" ++ "github.com/foo/bar")).mapError GrmError.invalidReference ∧
    OriginUrlScheme.Https.get_url "github.com/foo/bar" "foo"
      = (Url.parse ("https://" ++ "github.com/foo/bar")).mapError GrmError.invalidReference :=
  C3_two_separator_qualification.1 "github.com/foo/bar" "foo" (by decide)

/-- C4: every recursive step of the normaliser strictly increases the
number of separators of the current reference, and after at most three
qualification steps the terminal parse is reached (the step function
returns `none`). -/
theorem C4_strict_increase_and_termination :
    (∀ (scheme : OriginUrlScheme) (user repo r2 : String),
      nextRef scheme user repo = some r2 → countSep repo < countSep r2) ∧
    (∀ (scheme : OriginUrlScheme) (user repo : String),
      nextRef scheme user (nextRefApply scheme user (nextRefApply scheme user
        (nextRefApply scheme user repo))) = none) := by
  constructor
  · intro scheme user repo r2 h
    exact nextRef_countSep h
  · intro scheme user repo
    have hid : ∀ r : String, 3 ≤ countSep r → nextRefApply scheme user r = r := by
      intro r h
      rw [nextRefApply, nextRef_none_of_ge h]
      rfl
    have hstep : ∀ r r2 : String, nextRef scheme user r = some r2 →
        nextRefApply scheme user r = r2 := by
      intro r r2 h
      rw [nextRefApply, h]
      rfl
    by_cases h3 : 3 ≤ countSep repo
    · rw [hid repo h3, hid repo h3, hid repo h3]
      exact nextRef_none_of_ge h3
    · by_cases h2 : countSep repo = 2
      · have hs : nextRef scheme user repo = some (schemePrefixed scheme repo) := by
          rw [nextRef, h2]
        have hcp : 3 ≤ countSep (schemePrefixed scheme repo) := by
          rw [countSep_schemePrefixed]; omega
        rw [hstep _ _ hs, hid _ hcp, hid _ hcp]
        exact nextRef_none_of_ge hcp
      · by_cases h1 : countSep repo = 1
        · have hs : nextRef scheme user repo = some (DEFAULT_HOST ++ "/" ++ repo) := by
            rw [nextRef, h1]
          have hc2 : countSep (DEFAULT_HOST ++ "/" ++ repo) = 2 := by
            rw [countSep_prepend_host, h1]
          have hs2 : nextRef scheme user (DEFAULT_HOST ++ "/" ++ repo)
              = some (schemePrefixed scheme (DEFAULT_HOST ++ "/" ++ repo)) := by
            rw [nextRef, hc2]
          have hcp : 3 ≤ countSep (schemePrefixed scheme (DEFAULT_HOST ++ "/" ++ repo)) := by
            rw [countSep_schemePrefixed]; omega
          rw [hstep _ _ hs, hstep _ _ hs2, hid _ hcp]
          exact nextRef_none_of_ge hcp
        · have h0 : countSep repo = 0 := by omega
          have hs : nextRef scheme user repo = some (user ++ "/" ++ repo) := by
            rw [nextRef, h0]
          rw [hstep _ _ hs]
          have hc1 : 1 ≤ countSep (user ++ "/" ++ repo) := by
            rw [countSep_prepend_user]; omega
          by_cases h3b : 3 ≤ countSep (user ++ "/" ++ repo)
          · rw [hid _ h3b, hid _ h3b]
            exact nextRef_none_of_ge h3b
          · by_cases h2b : countSep (user ++ "/" ++ repo) = 2
            · have hs2 : nextRef scheme user (user ++ "/" ++ repo)
                  = some (schemePrefixed scheme (user ++ "/" ++ repo)) := by
                rw [nextRef, h2b]
              have hcp : 3 ≤ countSep (schemePrefixed scheme (user ++ "/" ++ repo)) := by
                rw [countSep_schemePrefixed]; omega
              rw [hstep _ _ hs2, hid _ hcp]
              exact nextRef_none_of_ge hcp
            · have h1b : countSep (user ++ "/" ++ repo) = 1 := by omega
              have hs2 : nextRef scheme user (user ++ "/" ++ repo)
                  = some (DEFAULT_HOST ++ "/" ++ (user ++ "/" ++ repo)) := by
                rw [nextRef, h1b]
              have hc2 : countSep (DEFAULT_HOST ++ "/" ++ (user ++ "/" ++ repo)) = 2 := by
                rw [countSep_prepend_host, h1b]
              have hs3 : nextRef scheme user (DEFAULT_HOST ++ "/" ++ (user ++ "/" ++ repo))
                  = some (schemePrefixed scheme
                      (DEFAULT_HOST ++ "/" ++ (user ++ "/" ++ repo))) := by
                rw [nextRef, hc2]
              rw [hstep _ _ hs2, hstep _ _ hs3]
              exact nextRef_none_of_ge (by rw [countSep_schemePrefixed]; omega)

/-- C4 witness: the strict-increase part applied to the bare reference
`bar` with username `foo`. -/
theorem C4_witness :
    nextRef OriginUrlScheme.Https "foo" "bar" = some "foo/bar" ∧
      countSep "bar" < countSep "foo/bar" :=
  ⟨by decide,
   C4_strict_increase_and_termination.1 OriginUrlScheme.Https "foo" "bar" "foo/bar"
     (by decide)⟩

/-- C5: for a URL with domain `d`, the local repository path is exactly
`root` joined with `d` joined with the URL's path stripped of leading
slashes; as a pure function of `(root, url)` it is deterministic, with
no filesystem access or hidden state. -/
theorem C5_local_path_formula (root : FsPath) (u : Url) (d : String)
    (hd : u.domain = some d) :
    get_repo_path root u
      = .ok (pathJoin (pathJoin root d) (trimLeadingSlashes u.path)) := by
  rw [get_repo_path, hd]

/-- C5 witness: the formula at the example URL. -/
theorem C5_local_path_formula_witness :
    get_repo_path ["r"] exampleUrl
      = .ok (pathJoin (pathJoin ["r"] "github.com") (trimLeadingSlashes exampleUrl.path)) :=
  C5_local_path_formula ["r"] exampleUrl "github.com" (by decide)

/-- C6 counterexample: the claim's "only when the URL lacks a host" is
false of the code.  The reference `1.2.3.4/foo/bar` (two separators,
encrypted-HTTP preference) normalises to `https://1.2.3.4/foo/bar`,
whose host is present but is an IP address, so `domain()` is `none` and
the local-path computation fails with `missingDomain` anyway. -/
theorem C6_counterexample :
    OriginUrlScheme.Https.get_url "1.2.3.4/foo/bar" "foo" = .ok ipHostUrl ∧
    ipHostUrl.host = some "1.2.3.4" ∧
    get_repo_path ["r"] ipHostUrl
      = .error (GrmError.missingDomain "https://1.2.3.4/foo/bar") := by
  refine ⟨?_, ?_, ?_⟩ <;> decide

/-- C6 (amended): the local-path computation fails with `missingDomain`,
naming the offending URL, exactly when the URL has no domain — its host
is absent, or is an IP address under a special scheme; URLs produced by
the parser never carry an empty domain, so no silent empty-domain path
arises. -/
theorem C6_missing_domain :
    (∀ (root : FsPath) (u : Url),
      get_repo_path root u = .error (GrmError.missingDomain u.serialize) ↔
        u.domain = none) ∧
    (∀ (s : String) (u : Url), Url.parse s = .ok u → u.domain ≠ some "") := by
  constructor
  · intro root u
    constructor
    · intro h
      cases hh : u.domain with
      | none => rfl
      | some d => rw [get_repo_path, hh] at h; simp at h
    · intro hh
      rw [get_repo_path, hh]
  · intro s u hp
    have hne := (parse_ok_inv hp).2
    intro hcontra
    obtain ⟨sc, un, pw, ho, po, pa, q, f⟩ := u
    cases ho with
    | none => simp [Url.domain] at hcontra
    | some h0 =>
      rw [Url.domain] at hcontra
      simp only at hcontra
      split at hcontra
      · simp at hcontra
      · split at hcontra
        · simp at hcontra
        · simp only [Option.some.injEq] at hcontra
          exact hne (by rw [hcontra])

/-- C6 witness: a host-less URL fails with `missingDomain`, and parsing
`https:///foo/bar` yields that URL with no domain rather than an empty
one. -/
theorem C6_missing_domain_witness :
    get_repo_path ["r"] hostlessUrl
      = .error (GrmError.missingDomain hostlessUrl.serialize) ∧
    hostlessUrl.domain ≠ some "" :=
  ⟨(C6_missing_domain.1 ["r"] hostlessUrl).mpr rfl,
   C6_missing_domain.2 "https:///foo/bar" hostlessUrl (by decide)⟩

/-- C7: the worktree-path computation fails with `unmanagedRepository`
exactly when the main working directory is not component-wise under the
root, succeeds otherwise, and the identifier used as the linked
worktree's internal name is the branch name with every `/` replaced
(`__`): no slash remains, and slash-free branch names are unchanged. -/
theorem C7_worktree_containment :
    (∀ (root mainPath : FsPath) (branch : String),
      (get_worktree_path root mainPath branch = .error GrmError.unmanagedRepository ↔
        ¬ root <+: mainPath) ∧
      (root <+: mainPath → ∃ p, get_worktree_path root mainPath branch = .ok p)) ∧
    (∀ branch : String, '/' ∉ (worktree_internal_name branch).data) ∧
    (∀ branch : String, ¬ containsChar branch '/' = true →
      worktree_internal_name branch = branch) := by
  refine ⟨?_, worktree_internal_name_no_slash, fun b h => worktree_internal_name_id h⟩
  intro root mainPath branch
  constructor
  · constructor
    · intro h hpre
      rw [get_worktree_path, stripPrefixPath,
        if_pos (List.isPrefixOf_iff_prefix.mpr hpre)] at h
      simp at h
    · intro hnp
      rw [get_worktree_path, stripPrefixPath,
        if_neg (fun hx => hnp (List.isPrefixOf_iff_prefix.mp hx))]
  · intro hpre
    rw [get_worktree_path, stripPrefixPath,
      if_pos (List.isPrefixOf_iff_prefix.mpr hpre)]
    exact ⟨_, rfl⟩

/-- C7 witness: an unmanaged path fails, a managed one succeeds, and a
slash-free branch name is kept as the internal identifier. -/
theorem C7_worktree_containment_witness :
    get_worktree_path ["r"] ["x", "y"] "b" = .error GrmError.unmanagedRepository ∧
    (∃ p, get_worktree_path ["r"] ["r", "a"] "b" = .ok p) ∧
    worktree_internal_name "feat" = "feat" :=
  ⟨((C7_worktree_containment.1 ["r"] ["x", "y"] "b").1).mpr (by decide),
   (C7_worktree_containment.1 ["r"] ["r", "a"] "b").2 (by decide),
   C7_worktree_containment.2.2 "feat" (by decide)⟩

/-- C8 counterexample: for the managed repository
`root/github.com/foo/bar` and branch `feat/x`, the computed worktree
path keeps the branch's slash as a directory separator — its final
components are `feat, x`, not the single component `feat__x` claimed. -/
theorem C8_counterexample :
    get_worktree_path ["root"] ["root", "github.com", "foo", "bar"] "feat/x"
      = .ok ["root", "worktrees", "github.com", "foo", "bar", "feat", "x"] ∧
    (["root", "worktrees", "github.com", "foo", "bar", "feat", "x"] : FsPath)
      ≠ ["root", "worktrees", "github.com", "foo", "bar", "feat__x"] := by
  constructor <;> decide

/-- C8 (amended): for a managed repository the worktree path is
`root/worktrees/<relative>/<branch>` with the branch name joined
verbatim, its slashes contributing subdirectories; the slash
replacement applies only to the worktree's internal name. -/
theorem C8_worktree_path_formula (root mainPath : FsPath) (branch : String)
    (rel : FsPath) (h : stripPrefixPath root mainPath = some rel) :
    get_worktree_path root mainPath branch
      = .ok (root ++ ["worktrees"] ++ rel ++ splitPath branch) := by
  rw [get_worktree_path, h, worktree_root_dir, pathJoin]
  rw [show splitPath "worktrees" = ["worktrees"] from by decide]

/-- C8 witness: the amended formula at the counterexample input. -/
theorem C8_worktree_path_formula_witness :
    get_worktree_path ["root"] ["root", "github.com", "foo", "bar"] "feat/x"
      = .ok (["root"] ++ ["worktrees"] ++ ["github.com", "foo", "bar"]
          ++ splitPath "feat/x") :=
  C8_worktree_path_formula ["root"] ["root", "github.com", "foo", "bar"] "feat/x"
    ["github.com", "foo", "bar"] (by decide)

/-- C9: branch resolution keeps exactly the branches containing the
requested substring, sorts ascending by segment count then length, and
selects the last, which is a maximal matching branch under that order;
it fails with `noMatchingBranch` exactly when no branch matches. -/
theorem C9_branch_resolution (name : String) (branches : List String) :
    (select_branch name branches = .error (GrmError.noMatchingBranch name) ↔
      ∀ b ∈ branches, ¬ containsSubstring b name = true) ∧
    (∀ r, select_branch name branches = .ok r →
      r ∈ branches ∧ containsSubstring r name = true ∧
        ∀ b ∈ branches, containsSubstring b name = true → branchOrderLe b r = true) :=
  ⟨select_branch_error_iff name branches, fun _ h => select_branch_ok_max h⟩

/-- C9 witness: no branch contains `zzz`, and `feat` selects `feat/x`
out of `[main, feat/x]` as a maximal match. -/
theorem C9_branch_resolution_witness :
    select_branch "zzz" ["main"] = .error (GrmError.noMatchingBranch "zzz") ∧
    ("feat/x" ∈ ["main", "feat/x"] ∧ containsSubstring "feat/x" "feat" = true ∧
      ∀ b ∈ ["main", "feat/x"], containsSubstring b "feat" = true →
        branchOrderLe b "feat/x" = true) :=
  ⟨(C9_branch_resolution "zzz" ["main"]).1.mpr (by decide),
   (C9_branch_resolution "feat" ["main", "feat/x"]).2 "feat/x" (by
      have h1 : containsSubstring "main" "feat" = false := by decide
      have h2 : containsSubstring "feat/x" "feat" = true := by decide
      simp [select_branch, List.filter, h1, h2])⟩

/-- C10: two URLs with the same domain and the same path yield the same
local repository path, whatever their scheme, user information, port,
query or fragment. -/
theorem C10_domain_path_determines (root : FsPath) (u1 u2 : Url) (d : String)
    (h1 : u1.domain = some d) (h2 : u2.domain = some d) (hp : u1.path = u2.path) :
    get_repo_path root u1 = get_repo_path root u2 := by
  rw [get_repo_path, get_repo_path, h1, h2, hp]

/-- C10 witness: the secure-shell and encrypted-HTTP normalisations of
`github.com/foo/bar` map to the same local directory. -/
theorem C10_domain_path_determines_witness :
    OriginUrlScheme.Ssh.get_url "github.com/foo/bar" "foo" = .ok exampleSshUrl ∧
    OriginUrlScheme.Https.get_url "github.com/foo/bar" "foo" = .ok exampleUrl ∧
    get_repo_path ["r"] exampleSshUrl = get_repo_path ["r"] exampleUrl :=
  ⟨by decide, by decide,
   C10_domain_path_determines ["r"] exampleSshUrl exampleUrl "github.com"
     (by decide) (by decide) rfl⟩

end Grm
